import Mathlib

/-!
Verification of the markdown segmentation pipeline of `MarkdownPreview.tsx`
and of the local file store (`createFile` / `deleteFile`).

The markdown parser (markdown-it) is an external collaborator: we model its
token stream as a list of `MdToken`s (an opaque chunk of rendered HTML, a
fenced code block carrying its content and info string, or an indented code
block carrying its content), and we embed faithfully the code of the
repository that runs on top of it: the custom `fence` / `code_block`
renderer rules, the save/restore discipline on the shared renderer rule
table, and the regex scan that splits the rendered HTML around the emitted
placeholder `<div data-code-block-id="...">` markers.
-/

namespace OMD

/-- Whitespace set of JavaScript string trimming (ECMA-262 `TrimString`). -/
def isJsWhitespace (c : Char) : Bool :=
  c == ' ' || c == '\t' || c == '\n' || c == '\r' || c == '\x0b' || c == '\x0c' ||
    c == '\u00A0' || c == '\u1680' || ('\u2000' ≤ c && c ≤ '\u200A') || c == '\u2028' ||
    c == '\u2029' || c == '\u202F' || c == '\u205F' || c == '\u3000' || c == '\uFEFF'

/-- A JavaScript string is falsy after `.trim()` iff all its characters are whitespace. -/
def jsBlank (s : String) : Bool := s.data.all isJsWhitespace

/-- Embedding of `code.replace(/\n$/, '')`: strip exactly one trailing newline, if present. -/
def stripTrailingNewline (s : String) : String :=
  if s.data.getLast? = some '\n' then ⟨s.data.dropLast⟩ else s

/-- The `CodeBlockData` interface of `MarkdownPreview.tsx`. -/
structure CodeBlockData where
  id : String
  code : String
  language : String
deriving DecidableEq

/-- Abstract view of the markdown-it token stream fed to the renderer: either a
block rendered by untouched rules (kept as its opaque output HTML), a fenced
code block (`token.content`, `token.info`), or an indented code block. -/
inductive MdToken where
  | inline (html : String)
  | fence (content : String) (info : String)
  | code_block (content : String)
deriving DecidableEq

/-- The `Segment` union of `MarkdownPreview.tsx`. -/
inductive Segment where
  | html (content : String)
  | code (data : CodeBlockData)
deriving DecidableEq

/-- A renderer-rule slot is either the module-load original handler or the
pass-local intercepting closure installed by `processedContent`. -/
inductive RuleSlot where
  | original
  | intercept
deriving DecidableEq

/-- The five mutable slots of `md.renderer.rules` touched by the component. -/
structure RendererRules where
  fence : RuleSlot
  code_block : RuleSlot
  image : RuleSlot
  link_open : RuleSlot
  link_close : RuleSlot
deriving DecidableEq

/-- All slots restored to the module-load originals. -/
def originalRules : RendererRules := ⟨.original, .original, .original, .original, .original⟩

/-- All slots replaced by the pass-local custom handlers. -/
def interceptRules : RendererRules := ⟨.intercept, .intercept, .intercept, .intercept, .intercept⟩

/-- Identifier assigned to the `blockIndex`-th code block: `code-block-${blockIndex++}`. -/
def mkBlockId (n : Nat) : String := "code-block-" ++ Nat.repr n

/-- Placeholder marker emitted in place of a code block's rendering. -/
def placeholderHtml (i : String) : String :=
  "<div data-code-block-id=\"" ++ i ++ "\"></div>"

/-- Characters of the opening literal of the placeholder pattern. -/
def openLit : List Char := "<div data-code-block-id=\"".data

/-- Characters of the closing literal of the placeholder pattern. -/
def closeLit : List Char := "\"></div>".data

/-- Language tag of a fenced block: `token.info || 'plaintext'`. -/
def langOf (info : String) : String := if info = "" then "plaintext" else info

/-- Rendering pass over the token stream: each token goes through the current
rule table.  `oF`/`oC` stand for the original (module-load) `fence` and
`code_block` handlers; when a slot holds the intercepting closure the pass
assigns the next sequential id, records a descriptor and emits a placeholder. -/
def renderTokensWith (oF : String → String → String) (oC : String → String)
    (rules : RendererRules) : List MdToken → Nat → String × List CodeBlockData
  | [], _ => ("", [])
  | MdToken.inline s :: ts, n =>
    let r := renderTokensWith oF oC rules ts n
    (s ++ r.1, r.2)
  | MdToken.fence content info :: ts, n =>
    if rules.fence = RuleSlot.intercept then
      let i := mkBlockId n
      let r := renderTokensWith oF oC rules ts (n + 1)
      (placeholderHtml i ++ r.1, ⟨i, stripTrailingNewline content, langOf info⟩ :: r.2)
    else
      let r := renderTokensWith oF oC rules ts n
      (oF content info ++ r.1, r.2)
  | MdToken.code_block content :: ts, n =>
    if rules.code_block = RuleSlot.intercept then
      let i := mkBlockId n
      let r := renderTokensWith oF oC rules ts (n + 1)
      (placeholderHtml i ++ r.1, ⟨i, stripTrailingNewline content, "plaintext"⟩ :: r.2)
    else
      let r := renderTokensWith oF oC rules ts n
      (oC content ++ r.1, r.2)

/-- The `processedContent` memo body, with the shared renderer rule table made
explicit: blank input returns early (before any mutation); otherwise the five
slots are overwritten, the parse runs once with a fresh counter, and the slots
are restored to the originals before returning. -/
def processedContentSt (oF : String → String → String) (oC : String → String)
    (parse : String → List MdToken) (source : String) (rules : RendererRules) :
    (String × List CodeBlockData) × RendererRules :=
  if jsBlank source then (("", []), rules)
  else (renderTokensWith oF oC interceptRules (parse source) 0, originalRules)

/-- The value part of `processedContent`. -/
def processedContent (oF : String → String → String) (oC : String → String)
    (parse : String → List MdToken) (source : String) : String × List CodeBlockData :=
  (processedContentSt oF oC parse source originalRules).1

/-- Drop `p` from the front of `s` when `p` is literally there. -/
def dropPrefixChars : List Char → List Char → Option (List Char)
  | [], s => some s
  | _ :: _, [] => none
  | p :: ps, c :: cs => if p = c then dropPrefixChars ps cs else none

/-- One attempt of the regex `/<div data-code-block-id="([^"]+)"><\/div>/` at the
start of `s`: the opening literal, then a nonempty maximal run of non-quote
characters (the captured identifier), then the closing literal. -/
def matchPlaceholderAt (s : List Char) : Option (String × List Char) :=
  match dropPrefixChars openLit s with
  | none => none
  | some s1 =>
    let idChars := s1.takeWhile (fun c => c != '"')
    if idChars = [] then none
    else
      match dropPrefixChars closeLit (s1.dropWhile (fun c => c != '"')) with
      | none => none
      | some rest => some (⟨idChars⟩, rest)

/-- Lookup in `new Map(codeBlocks.map((cb) => [cb.id, cb]))`: for duplicate keys
the later insertion wins, hence the search over the reversed list. -/
def mapGet (cbs : List CodeBlockData) (key : String) : Option CodeBlockData :=
  cbs.reverse.find? (fun cb => cb.id == key)

/-- Emit the HTML accumulated since the last match, unless blank after trimming. -/
def flushHtml (acc : List Char) : List Segment :=
  if jsBlank ⟨acc⟩ then [] else [Segment.html ⟨acc⟩]

/-- Emit the code segment for a matched identifier, or nothing when no
descriptor was recorded under it. -/
def lookupSeg (cbs : List CodeBlockData) (key : String) : List Segment :=
  match mapGet cbs key with
  | some cb => [Segment.code cb]
  | none => []

/-- The `while (match !== null)` scan of `segments`, fuelled by the length of
the scanned text (each step consumes at least one character). -/
def scanAux (cbs : List CodeBlockData) : Nat → List Char → List Char → List Segment
  | _, acc, [] => flushHtml acc
  | 0, acc, s => flushHtml (acc ++ s)
  | fuel + 1, acc, c :: rest =>
    match matchPlaceholderAt (c :: rest) with
    | some (key, rest2) => flushHtml acc ++ lookupSeg cbs key ++ scanAux cbs fuel [] rest2
    | none => scanAux cbs fuel (acc ++ [c]) rest

/-- The `segments` memo: empty HTML short-circuits to the empty sequence,
otherwise the placeholder scan splits the HTML. -/
def segmentsOf (htmlOut : String) (cbs : List CodeBlockData) : List Segment :=
  if htmlOut = "" then [] else scanAux cbs htmlOut.data.length [] htmlOut.data

/-- Segmentation of a token stream (the non-blank-source path of the pipeline). -/
def segmentTokens (oF : String → String → String) (oC : String → String)
    (ts : List MdToken) : List Segment :=
  let r := renderTokensWith oF oC interceptRules ts 0
  segmentsOf r.1 r.2

/-- Full pipeline with the shared rule table threaded through. -/
def runSegmenterSt (oF : String → String → String) (oC : String → String)
    (parse : String → List MdToken) (source : String) (rules : RendererRules) :
    List Segment × RendererRules :=
  let r := processedContentSt oF oC parse source rules
  (segmentsOf r.1.1 r.1.2, r.2)

/-- Full pipeline: `processedContent` followed by `segments`. -/
def runSegmenter (oF : String → String → String) (oC : String → String)
    (parse : String → List MdToken) (source : String) : List Segment :=
  (runSegmenterSt oF oC parse source originalRules).1

/-- Does this token render through an untouched rule? -/
def isInlineTok : MdToken → Bool
  | MdToken.inline _ => true
  | _ => false

/-- Is this token a fenced or indented code block? -/
def isCodeTok (t : MdToken) : Bool := !isInlineTok t

/-- Number of fenced or indented code blocks in the stream. -/
def countCode (ts : List MdToken) : Nat := ts.countP isCodeTok

/-- Does the opening placeholder literal occur anywhere in `s`? -/
def hasOpenLit : List Char → Bool
  | [] => false
  | c :: cs => (dropPrefixChars openLit (c :: cs)).isSome || hasOpenLit cs

/-- A non-code token whose rendered HTML cannot be mistaken for a placeholder. -/
def tokenFree : MdToken → Bool
  | MdToken.inline s => !hasOpenLit s.data
  | _ => true

/-- Every rendered non-code chunk is free of the placeholder opening literal. -/
def inlineFreeB (ts : List MdToken) : Bool := ts.all tokenFree

/-- No two adjacent non-code chunks (adjacent chunks are merged by the renderer,
so this is a normal form for the abstract token stream). -/
def normalizedB : List MdToken → Bool
  | [] => true
  | [_] => true
  | a :: b :: ts => !(isInlineTok a && isInlineTok b) && normalizedB (b :: ts)

/-- Extract the descriptor of a code segment. -/
def codeOf : Segment → Option CodeBlockData
  | Segment.code d => some d
  | Segment.html _ => none

/-- Is this segment a code segment? -/
def isCodeSeg : Segment → Bool
  | Segment.code _ => true
  | Segment.html _ => false

/-- Content of a code-block token. -/
def contentOf : MdToken → Option String
  | MdToken.fence c _ => some c
  | MdToken.code_block c => some c
  | MdToken.inline _ => none

/-- Language tag recorded for a code-block token. -/
def tokenLang : MdToken → Option String
  | MdToken.fence _ i => some (langOf i)
  | MdToken.code_block _ => some "plaintext"
  | MdToken.inline _ => none

/-- Reference segment sequence, written after the specified algorithm: walk the
document top to bottom, flush the pending HTML (dropping it when blank) before
each code block, emit each code block's descriptor once, in order, with
sequentially assigned identifiers, and flush the trailing HTML at the end. -/
def refSegments : List Char → List MdToken → Nat → List Segment
  | acc, [], _ => flushHtml acc
  | acc, MdToken.inline s :: ts, n => refSegments (acc ++ s.data) ts n
  | acc, MdToken.fence content info :: ts, n =>
    flushHtml acc ++ [Segment.code ⟨mkBlockId n, stripTrailingNewline content, langOf info⟩] ++
      refSegments [] ts (n + 1)
  | acc, MdToken.code_block content :: ts, n =>
    flushHtml acc ++ [Segment.code ⟨mkBlockId n, stripTrailingNewline content, "plaintext"⟩] ++
      refSegments [] ts (n + 1)

/-- Concatenated HTML of the non-code tokens. -/
def inlineConcat : List MdToken → String
  | [] => ""
  | MdToken.inline s :: ts => s ++ inlineConcat ts
  | _ :: ts => inlineConcat ts

/-- An HTML segment that is non-blank after trimming (code segments pass). -/
def noBlankHtmlSeg : Segment → Bool
  | Segment.html c => !jsBlank c
  | Segment.code _ => true

/-- An HTML segment free of the placeholder marker text (code segments pass). -/
def markerFreeSeg : Segment → Bool
  | Segment.html c => !hasOpenLit c.data
  | Segment.code _ => true

/-- The `SavedFile` interface of the local file store. -/
structure SavedFile where
  id : String
  name : String
  content : String
  createdAt : Nat
  updatedAt : Nat
deriving DecidableEq

/-- The store state: the saved files and the current-file selection. -/
structure FilesState where
  files : List SavedFile
  currentFileId : Option String
deriving DecidableEq

/-- Embedding of `createFile`: the id and the clock reading are inputs (they
come from `generateId()` and `Date.now()`); an empty name falls back to
`'Untitled'`; both timestamps are the same reading; the file is appended. -/
def createFile (files : List SavedFile) (newId : String) (name content : String)
    (now : Nat) : SavedFile × List SavedFile :=
  let file : SavedFile :=
    ⟨newId, if name = "" then "Untitled" else name, content, now, now⟩
  (file, files ++ [file])

/-- Embedding of `deleteFile`: keep the files whose id differs, then clear the
selection only when it pointed at the deleted id. -/
def deleteFile (st : FilesState) (fid : String) : FilesState :=
  ⟨st.files.filter (fun f => f.id != fid),
   if st.currentFileId = some fid then none else st.currentFileId⟩

/-- Decimal digits of a natural number, least significant first. -/
def digitsRev (n : Nat) : List Nat :=
  if n < 10 then [n] else n % 10 :: digitsRev (n / 10)
decreasing_by exact Nat.div_lt_self (by omega) (by omega)

/-- Decode a least-significant-first decimal digit list. -/
def ofDigitsRev : List Nat → Nat
  | [] => 0
  | d :: ds => d + 10 * ofDigitsRev ds

/-- Sample original fence handler used to instantiate examples. -/
def exF : String → String → String := fun content info => "<pre>" ++ info ++ ":" ++ content ++ "</pre>"

/-- Sample original indented-code handler used to instantiate examples. -/
def exC : String → String := fun content => "<pre>" ++ content ++ "</pre>"

/-- Token stream of the worked example `"A\n```\nx\n```\nB"`. -/
def exampleTokens : List MdToken :=
  [MdToken.inline "<p>A</p>\n", MdToken.fence "x\n" "", MdToken.inline "<p>B</p>\n"]

/-! ### Decimal representation: `Nat.repr` characterization -/

theorem digitsRev_eq (n : Nat) :
    digitsRev n = if n < 10 then [n] else n % 10 :: digitsRev (n / 10) := by
  rw [digitsRev]

theorem toDigitsCore_eq (n : Nat) : ∀ fuel ds, n < fuel →
    Nat.toDigitsCore 10 fuel n ds = ((digitsRev n).map Nat.digitChar).reverse ++ ds := by
  induction n using Nat.strong_induction_on with
  | _ n ih =>
    intro fuel ds h
    obtain ⟨f, rfl⟩ : ∃ f, fuel = f + 1 := ⟨fuel - 1, by omega⟩
    rw [digitsRev_eq]
    by_cases h10 : n < 10
    · have hdiv : n / 10 = 0 := Nat.div_eq_of_lt h10
      simp [Nat.toDigitsCore, hdiv, h10, Nat.mod_eq_of_lt h10]
    · have hdiv : n / 10 ≠ 0 := by omega
      have hlt : n / 10 < n := Nat.div_lt_self (by omega) (by omega)
      simp only [Nat.toDigitsCore]
      rw [if_neg hdiv, ih (n / 10) hlt f (Nat.digitChar (n % 10) :: ds) (by omega)]
      simp [h10, List.append_assoc]

theorem repr_eq_digits (n : Nat) :
    (Nat.repr n).data = ((digitsRev n).map Nat.digitChar).reverse := by
  show (Nat.toDigits 10 n).asString.data = _
  rw [Nat.toDigits, toDigitsCore_eq n (n + 1) [] (by omega)]
  simp [List.asString]

theorem digitsRev_lt_ten (n : Nat) : ∀ d ∈ digitsRev n, d < 10 := by
  induction n using Nat.strong_induction_on with
  | _ n ih =>
    rw [digitsRev_eq]
    by_cases h10 : n < 10
    · intro d hd
      simp [h10] at hd
      omega
    · have hlt : n / 10 < n := Nat.div_lt_self (by omega) (by omega)
      simp only [if_neg h10, List.mem_cons]
      rintro d (rfl | hd)
      · omega
      · exact ih (n / 10) hlt d hd

theorem ofDigitsRev_digitsRev (n : Nat) : ofDigitsRev (digitsRev n) = n := by
  induction n using Nat.strong_induction_on with
  | _ n ih =>
    rw [digitsRev_eq]
    by_cases h10 : n < 10
    · simp [h10, ofDigitsRev]
    · have hlt : n / 10 < n := Nat.div_lt_self (by omega) (by omega)
      simp only [if_neg h10, ofDigitsRev, ih (n / 10) hlt]
      omega

theorem digitChar_fin_inj : ∀ a b : Fin 10, Nat.digitChar a.val = Nat.digitChar b.val → a = b := by
  decide

theorem map_digitChar_inj : ∀ l1 l2 : List Nat, (∀ d ∈ l1, d < 10) → (∀ d ∈ l2, d < 10) →
    l1.map Nat.digitChar = l2.map Nat.digitChar → l1 = l2
  | [], [], _, _, _ => rfl
  | [], _ :: _, _, _, h => by simp at h
  | _ :: _, [], _, _, h => by simp at h
  | a :: l1, b :: l2, h1, h2, h => by
    simp only [List.map_cons, List.cons.injEq] at h
    have ha : a < 10 := h1 a (by simp)
    have hb : b < 10 := h2 b (by simp)
    have hab : a = b := by
      have := digitChar_fin_inj ⟨a, ha⟩ ⟨b, hb⟩ h.1
      exact congrArg Fin.val this
    have := map_digitChar_inj l1 l2 (fun d hd => h1 d (by simp [hd]))
      (fun d hd => h2 d (by simp [hd])) h.2
    simp [hab, this]

theorem reprNat_inj {a b : Nat} (h : Nat.repr a = Nat.repr b) : a = b := by
  have hd := congrArg String.data h
  rw [repr_eq_digits, repr_eq_digits, List.reverse_inj] at hd
  have := map_digitChar_inj _ _ (digitsRev_lt_ten a) (digitsRev_lt_ten b) hd
  calc a = ofDigitsRev (digitsRev a) := (ofDigitsRev_digitsRev a).symm
    _ = ofDigitsRev (digitsRev b) := by rw [this]
    _ = b := ofDigitsRev_digitsRev b

theorem digitChar_mem_digits : ∀ d : Fin 10, Nat.digitChar d.val ∈ "0123456789".data := by
  decide

theorem repr_digit_mem (n : Nat) : ∀ c ∈ (Nat.repr n).data, c ∈ "0123456789".data := by
  intro c hc
  rw [repr_eq_digits, List.mem_reverse, List.mem_map] at hc
  obtain ⟨d, hd, rfl⟩ := hc
  exact digitChar_mem_digits ⟨d, digitsRev_lt_ten n d hd⟩

theorem mkBlockId_inj {a b : Nat} (h : mkBlockId a = mkBlockId b) : a = b := by
  have hd := congrArg String.data h
  simp only [mkBlockId, String.data_append, List.append_cancel_left_eq] at hd
  exact reprNat_inj (String.ext hd)

theorem quote_notin_idStem : ∀ c ∈ "code-block-".data, (c == '"') = false := by
  decide

theorem quote_notin_digits : ∀ c ∈ "0123456789".data, (c == '"') = false := by
  decide

theorem mkBlockId_no_quote (n : Nat) : ∀ c ∈ (mkBlockId n).data, (c == '"') = false := by
  intro c hc
  simp only [mkBlockId, String.data_append, List.mem_append] at hc
  rcases hc with hc | hc
  · exact quote_notin_idStem c hc
  · exact quote_notin_digits c (repr_digit_mem n c hc)

theorem mkBlockId_ne_nil (n : Nat) : (mkBlockId n).data ≠ [] := by
  intro h
  have := congrArg List.length h
  simp [mkBlockId, String.data_append] at this

/-! ### Placeholder matching -/

theorem string_mk_data (s : String) : (⟨s.data⟩ : String) = s := rfl

theorem openLit_cons : openLit = '<' :: "div data-code-block-id=\"".data := by decide

theorem closeLit_cons : closeLit = '"' :: "></div>".data := by decide

theorem openLit_ne_nil : openLit ≠ [] := by decide

theorem lt_char_notin_openLit_tail : '<' ∉ openLit.drop 1 := by decide

theorem dropPrefixChars_sound : ∀ p s r : List Char, dropPrefixChars p s = some r → s = p ++ r := by
  intro p
  induction p with
  | nil =>
    intro s r h
    simp only [dropPrefixChars, Option.some.injEq] at h
    simp [h]
  | cons a ps ih =>
    intro s r h
    match s with
    | [] => simp [dropPrefixChars] at h
    | c :: cs =>
      simp only [dropPrefixChars] at h
      by_cases hac : a = c
      · rw [if_pos hac] at h
        rw [← hac, ih cs r h]
        rfl
      · rw [if_neg hac] at h
        exact absurd h (by simp)

theorem dropPrefixChars_complete : ∀ p r : List Char, dropPrefixChars p (p ++ r) = some r := by
  intro p r
  induction p with
  | nil => rfl
  | cons a ps ih => simp [dropPrefixChars, ih]

theorem takeWhile_no_quote : ∀ a b : List Char, (∀ c ∈ a, (c != '"') = true) →
    (a ++ '"' :: b).takeWhile (fun c => c != '"') = a := by
  intro a
  induction a with
  | nil =>
    intro b _
    simp [List.takeWhile_cons]
  | cons x xs ih =>
    intro b hx
    have h1 : (x != '"') = true := hx x (by simp)
    simp only [List.cons_append, List.takeWhile_cons, h1, if_true]
    rw [ih b (fun c hc => hx c (by simp [hc]))]

theorem dropWhile_no_quote : ∀ a b : List Char, (∀ c ∈ a, (c != '"') = true) →
    (a ++ '"' :: b).dropWhile (fun c => c != '"') = '"' :: b := by
  intro a
  induction a with
  | nil =>
    intro b _
    simp [List.dropWhile_cons]
  | cons x xs ih =>
    intro b hx
    have h1 : (x != '"') = true := hx x (by simp)
    simp only [List.cons_append, List.dropWhile_cons, h1, if_true]
    exact ih b (fun c hc => hx c (by simp [hc]))

theorem match_complete (key : String) (rest : List Char)
    (h1 : key.data ≠ []) (h2 : ∀ c ∈ key.data, (c == '"') = false) :
    matchPlaceholderAt (openLit ++ (key.data ++ (closeLit ++ rest))) = some (key, rest) := by
  have h2' : ∀ c ∈ key.data, (c != '"') = true := by
    intro c hc
    have := h2 c hc
    simp [bne, this]
  have e0 : closeLit ++ rest = '"' :: ("></div>".data ++ rest) := by
    rw [closeLit_cons]
    rfl
  have e2 : (key.data ++ (closeLit ++ rest)).takeWhile (fun c => c != '"') = key.data := by
    rw [e0]
    exact takeWhile_no_quote key.data _ h2'
  have e3 : (key.data ++ (closeLit ++ rest)).dropWhile (fun c => c != '"') = closeLit ++ rest := by
    rw [e0]
    exact dropWhile_no_quote key.data _ h2'
  unfold matchPlaceholderAt
  rw [dropPrefixChars_complete]
  simp only [e2, e3, if_neg h1, dropPrefixChars_complete, string_mk_data]

theorem match_sound (s : List Char) (key : String) (rest : List Char)
    (h : matchPlaceholderAt s = some (key, rest)) :
    s = openLit ++ (key.data ++ (closeLit ++ rest)) ∧ key.data ≠ [] ∧
      ∀ c ∈ key.data, (c == '"') = false := by
  unfold matchPlaceholderAt at h
  cases e1 : dropPrefixChars openLit s with
  | none => rw [e1] at h; simp at h
  | some s1 =>
    rw [e1] at h
    by_cases hid : s1.takeWhile (fun c => c != '"') = []
    · simp only [hid, if_pos] at h
      cases h
    · simp only [if_neg hid] at h
      cases e2 : dropPrefixChars closeLit (s1.dropWhile (fun c => c != '"')) with
      | none => rw [e2] at h; simp at h
      | some r2 =>
        rw [e2] at h
        simp only [Option.some.injEq, Prod.mk.injEq] at h
        obtain ⟨hkey, hrest⟩ := h
        have hkd : key.data = s1.takeWhile (fun c => c != '"') := by
          rw [← hkey]
        have hs : s = openLit ++ s1 := dropPrefixChars_sound _ _ _ e1
        have hs1 : s1 = s1.takeWhile (fun c => c != '"') ++ s1.dropWhile (fun c => c != '"') :=
          (List.takeWhile_append_dropWhile _ _).symm
        have hdw : s1.dropWhile (fun c => c != '"') = closeLit ++ rest := by
          rw [← hrest]
          exact dropPrefixChars_sound _ _ _ e2
        refine ⟨?_, ?_, ?_⟩
        · rw [hs, hs1, hdw, hkd]
        · rw [hkd]; exact hid
        · intro c hc
          rw [hkd] at hc
          have := List.mem_takeWhile_imp hc
          simpa [bne] using this

theorem match_none_nil : matchPlaceholderAt [] = none := by
  unfold matchPlaceholderAt
  have : dropPrefixChars openLit [] = none := by
    rw [openLit_cons]
    rfl
  rw [this]

theorem match_shrink (s : List Char) (key : String) (rest : List Char)
    (h : matchPlaceholderAt s = some (key, rest)) : rest.length < s.length := by
  obtain ⟨heq, -, -⟩ := match_sound s key rest h
  have := congrArg List.length heq
  simp only [List.length_append] at this
  have hop : 0 < openLit.length := by decide
  omega

/-! ### Occurrences of the opening literal -/

theorem hasOpenLit_of_drop : ∀ (s : List Char) (k : Nat) (r : List Char),
    s.drop k = openLit ++ r → hasOpenLit s = true := by
  intro s
  induction s with
  | nil =>
    intro k r h
    rw [List.drop_nil] at h
    exact absurd (List.append_eq_nil.mp h.symm).1 openLit_ne_nil
  | cons c cs ih =>
    intro k r h
    match k with
    | 0 =>
      rw [List.drop_zero] at h
      simp only [hasOpenLit, Bool.or_eq_true]
      left
      rw [h, dropPrefixChars_complete]
      rfl
    | k + 1 =>
      rw [List.drop_succ_cons] at h
      simp only [hasOpenLit, Bool.or_eq_true]
      right
      exact ih k r h

theorem no_openLit_occurrence {s : List Char} (hfree : hasOpenLit s = false) :
    ∀ k r, s.drop k ≠ openLit ++ r := by
  intro k r h
  rw [hasOpenLit_of_drop s k r h] at hfree
  cases hfree

theorem region_no_match (h tail : List Char) (hfree : hasOpenLit h = false)
    (htail : tail = [] ∨ tail.head? = some '<') :
    ∀ k, k < h.length → matchPlaceholderAt (h.drop k ++ tail) = none := by
  intro k hk
  cases e : matchPlaceholderAt (h.drop k ++ tail) with
  | none => rfl
  | some kr =>
    exfalso
    obtain ⟨key, rest⟩ := kr
    obtain ⟨heq, hne, -⟩ := match_sound _ _ _ e
    have hh'len : 0 < (h.drop k).length := by
      rw [List.length_drop]
      omega
    by_cases hcmp : openLit.length ≤ (h.drop k).length
    · have htake := congrArg (List.take openLit.length) heq
      rw [List.take_append_of_le_length hcmp, List.take_left'] at htake
      · have : h.drop k = openLit ++ (h.drop k).drop openLit.length := by
          conv_lhs => rw [← List.take_append_drop openLit.length (h.drop k)]
          rw [htake]
        exact no_openLit_occurrence hfree k _ this
      · rfl
    · push_neg at hcmp
      rcases htail with rfl | hhead
      · rw [List.append_nil] at heq
        have := congrArg List.length heq
        simp only [List.length_append] at this
        omega
      · have hdrop := congrArg (List.drop (h.drop k).length) heq
        rw [List.drop_left, List.drop_append_of_le_length (Nat.le_of_lt hcmp)] at hdrop
        have hdne : openLit.drop (h.drop k).length ≠ [] := by
          intro hnil
          have hlen2 := congrArg List.length hnil
          have hcmp2 := hcmp
          simp only [List.length_drop, List.length_nil] at hlen2 hcmp2
          omega
        obtain ⟨d, ds, hds⟩ := List.exists_cons_of_ne_nil hdne
        have hdlt : d = '<' := by
          rw [hdrop, hds] at hhead
          simpa using hhead
        have hmem : d ∈ openLit.drop (h.drop k).length := by
          rw [hds]
          simp
        have hsub : openLit.drop (h.drop k).length ⊆ openLit.drop 1 :=
          List.drop_subset_drop_left openLit hh'len
        exact lt_char_notin_openLit_tail (hdlt ▸ hsub hmem)

/-! ### The placeholder scan -/

theorem scan_at_match (cbs : List CodeBlockData) (f : Nat) (acc s : List Char)
    (key : String) (rest : List Char) (hm : matchPlaceholderAt s = some (key, rest))
    (hf : s.length ≤ f) :
    scanAux cbs f acc s = flushHtml acc ++ lookupSeg cbs key ++ scanAux cbs (f - 1) [] rest := by
  obtain ⟨heq, -, -⟩ := match_sound s key rest hm
  have hcons : s = '<' :: ("div data-code-block-id=\"".data ++ (key.data ++ (closeLit ++ rest))) := by
    rw [heq, openLit_cons]
    rfl
  have hlen : 1 ≤ s.length := by
    rw [hcons]
    simp
  obtain ⟨f', rfl⟩ : ∃ f', f = f' + 1 := ⟨f - 1, by omega⟩
  rw [hcons]
  rw [hcons] at hm
  simp only [scanAux, hm, Nat.add_sub_cancel]

theorem scan_free (cbs : List CodeBlockData) : ∀ (h tail acc : List Char) (f : Nat),
    (h ++ tail).length ≤ f →
    (∀ k, k < h.length → matchPlaceholderAt (h.drop k ++ tail) = none) →
    scanAux cbs f acc (h ++ tail) = scanAux cbs (f - h.length) (acc ++ h) tail := by
  intro h
  induction h with
  | nil =>
    intro tail acc f _ _
    simp
  | cons c h ih =>
    intro tail acc f hf hnm
    have hlen : 1 ≤ f := by
      have := hf
      simp only [List.length_append, List.length_cons] at this
      omega
    obtain ⟨f', rfl⟩ : ∃ f', f = f' + 1 := ⟨f - 1, by omega⟩
    have h0 : matchPlaceholderAt (c :: (h ++ tail)) = none := by
      have := hnm 0 (by simp)
      rw [List.drop_zero] at this
      rw [← List.cons_append]
      exact this
    rw [List.cons_append]
    simp only [scanAux, h0]
    rw [ih tail (acc ++ [c]) f'
      (by simp only [List.length_append, List.length_cons] at hf ⊢; omega)
      (fun k hk => by
        have := hnm (k + 1) (by simp only [List.length_cons]; omega)
        rw [List.drop_succ_cons] at this
        exact this)]
    congr 1
    · simp only [List.length_cons]
      omega
    · simp

/-! ### Rendering characterization -/

theorem render_fence_intercept (oF : String → String → String) (oC : String → String)
    (c i : String) (ts : List MdToken) (n : Nat) :
    renderTokensWith oF oC interceptRules (MdToken.fence c i :: ts) n =
      (placeholderHtml (mkBlockId n) ++ (renderTokensWith oF oC interceptRules ts (n + 1)).1,
        ⟨mkBlockId n, stripTrailingNewline c, langOf i⟩ ::
          (renderTokensWith oF oC interceptRules ts (n + 1)).2) := rfl

theorem render_code_block_intercept (oF : String → String → String) (oC : String → String)
    (c : String) (ts : List MdToken) (n : Nat) :
    renderTokensWith oF oC interceptRules (MdToken.code_block c :: ts) n =
      (placeholderHtml (mkBlockId n) ++ (renderTokensWith oF oC interceptRules ts (n + 1)).1,
        ⟨mkBlockId n, stripTrailingNewline c, "plaintext"⟩ ::
          (renderTokensWith oF oC interceptRules ts (n + 1)).2) := rfl

theorem countCode_nil : countCode [] = 0 := rfl

theorem countCode_inline (s : String) (ts : List MdToken) :
    countCode (MdToken.inline s :: ts) = countCode ts := by
  simp [countCode, List.countP_cons, isCodeTok, isInlineTok]

theorem countCode_fence (c i : String) (ts : List MdToken) :
    countCode (MdToken.fence c i :: ts) = countCode ts + 1 := by
  simp [countCode, List.countP_cons, isCodeTok, isInlineTok]

theorem countCode_code_block (c : String) (ts : List MdToken) :
    countCode (MdToken.code_block c :: ts) = countCode ts + 1 := by
  simp [countCode, List.countP_cons, isCodeTok, isInlineTok]

theorem render_ids (oF : String → String → String) (oC : String → String) :
    ∀ (ts : List MdToken) (n : Nat),
    (renderTokensWith oF oC interceptRules ts n).2.map (fun d => d.id) =
      (List.range' n (countCode ts)).map mkBlockId := by
  intro ts
  induction ts with
  | nil => intro n; rfl
  | cons t ts ih =>
    intro n
    cases t with
    | inline s =>
      rw [countCode_inline]
      exact ih n
    | fence c i =>
      rw [render_fence_intercept, countCode_fence, List.range'_succ]
      simp only [List.map_cons, ih (n + 1)]
    | code_block c =>
      rw [render_code_block_intercept, countCode_code_block, List.range'_succ]
      simp only [List.map_cons, ih (n + 1)]

theorem render_codes (oF : String → String → String) (oC : String → String) :
    ∀ (ts : List MdToken) (n : Nat),
    (renderTokensWith oF oC interceptRules ts n).2.map (fun d => d.code) =
      (ts.filterMap contentOf).map stripTrailingNewline := by
  intro ts
  induction ts with
  | nil => intro n; rfl
  | cons t ts ih =>
    intro n
    cases t with
    | inline s => simpa [contentOf] using ih n
    | fence c i =>
      rw [render_fence_intercept]
      simpa [contentOf] using ih (n + 1)
    | code_block c =>
      rw [render_code_block_intercept]
      simpa [contentOf] using ih (n + 1)

theorem render_langs (oF : String → String → String) (oC : String → String) :
    ∀ (ts : List MdToken) (n : Nat),
    (renderTokensWith oF oC interceptRules ts n).2.map (fun d => d.language) =
      ts.filterMap tokenLang := by
  intro ts
  induction ts with
  | nil => intro n; rfl
  | cons t ts ih =>
    intro n
    cases t with
    | inline s => simpa [tokenLang] using ih n
    | fence c i =>
      rw [render_fence_intercept]
      simpa [tokenLang] using ih (n + 1)
    | code_block c =>
      rw [render_code_block_intercept]
      simpa [tokenLang] using ih (n + 1)

theorem render_all_inline (oF : String → String → String) (oC : String → String)
    (rules : RendererRules) : ∀ (ts : List MdToken) (n : Nat), ts.all isInlineTok = true →
    renderTokensWith oF oC rules ts n = (inlineConcat ts, []) := by
  intro ts
  induction ts with
  | nil => intro n _; rfl
  | cons t ts ih =>
    intro n hall
    cases t with
    | inline s =>
      simp only [List.all_cons, Bool.and_eq_true] at hall
      show (s ++ (renderTokensWith oF oC rules ts n).1,
        (renderTokensWith oF oC rules ts n).2) = _
      rw [ih n hall.2]
      rfl
    | fence c i => simp [List.all_cons, isInlineTok] at hall
    | code_block c => simp [List.all_cons, isInlineTok] at hall

theorem render_ids_nodup (oF : String → String → String) (oC : String → String)
    (ts : List MdToken) (n : Nat) :
    ((renderTokensWith oF oC interceptRules ts n).2.map (fun d => d.id)).Nodup := by
  rw [render_ids]
  exact List.Nodup.map (fun a b h => mkBlockId_inj h) (List.nodup_range' _ _)

theorem mapGet_self (l : List CodeBlockData) (hnd : (l.map (fun d => d.id)).Nodup) :
    ∀ d ∈ l, mapGet l d.id = some d := by
  intro d hd
  unfold mapGet
  cases e : l.reverse.find? (fun cb => cb.id == d.id) with
  | none =>
    exfalso
    have hex : (l.reverse.find? (fun cb => cb.id == d.id)).isSome := by
      rw [List.find?_isSome]
      exact ⟨d, List.mem_reverse.mpr hd, by simp⟩
    rw [e] at hex
    cases hex
  | some x =>
    have hpx := List.find?_some e
    have hxmem : x ∈ l := List.mem_reverse.mp (List.mem_of_find?_eq_some e)
    have hid : x.id = d.id := by simpa using hpx
    rw [List.inj_on_of_nodup_map hnd hxmem hd hid]

/-! ### The scan recovers the reference segmentation -/

theorem scanAux_nil (cbs : List CodeBlockData) (f : Nat) (acc : List Char) :
    scanAux cbs f acc [] = flushHtml acc := by
  cases f <;> rfl

theorem placeholder_data (i : String) :
    (placeholderHtml i).data = openLit ++ (i.data ++ closeLit) := by
  simp [placeholderHtml, openLit, closeLit, String.data_append]

theorem inlineFreeB_cons {t : MdToken} {ts : List MdToken} (h : inlineFreeB (t :: ts) = true) :
    tokenFree t = true ∧ inlineFreeB ts = true := by
  simpa [inlineFreeB, List.all_cons, Bool.and_eq_true] using h

theorem normalizedB_tail {t : MdToken} {ts : List MdToken} (h : normalizedB (t :: ts) = true) :
    normalizedB ts = true := by
  cases ts with
  | nil => rfl
  | cons b ts =>
    have := h
    simp only [normalizedB, Bool.and_eq_true] at this
    exact this.2

theorem normalizedB_head {t b : MdToken} {ts : List MdToken}
    (h : normalizedB (t :: b :: ts) = true) : (isInlineTok t && isInlineTok b) = false := by
  simp only [normalizedB, Bool.and_eq_true, Bool.not_eq_true'] at h
  exact h.1

theorem scan_render (oF : String → String → String) (oC : String → String) :
    ∀ (ts : List MdToken), normalizedB ts = true → inlineFreeB ts = true →
    ∀ (n : Nat) (acc : List Char) (CBS : List CodeBlockData) (f : Nat),
    (renderTokensWith oF oC interceptRules ts n).1.data.length ≤ f →
    (∀ d ∈ (renderTokensWith oF oC interceptRules ts n).2, mapGet CBS d.id = some d) →
    scanAux CBS f acc (renderTokensWith oF oC interceptRules ts n).1.data =
      refSegments acc ts n := by
  intro ts
  induction ts with
  | nil =>
    intro _ _ n acc CBS f _ _
    exact scanAux_nil CBS f acc
  | cons t ts ih =>
    intro hnorm hfree n acc CBS f hf hcbs
    cases t with
    | inline s =>
      obtain ⟨htf, hfree'⟩ := inlineFreeB_cons hfree
      have hs_free : hasOpenLit s.data = false := by
        simpa [tokenFree, Bool.not_eq_true'] using htf
      have hnorm' := normalizedB_tail hnorm
      have htail : (renderTokensWith oF oC interceptRules ts n).1.data = [] ∨
          (renderTokensWith oF oC interceptRules ts n).1.data.head? = some '<' := by
        cases ts with
        | nil => left; rfl
        | cons t' ts' =>
          cases t' with
          | inline s' =>
            exfalso
            have := normalizedB_head hnorm
            simp [isInlineTok] at this
          | fence c' i' =>
            right
            rw [render_fence_intercept]
            show ((placeholderHtml (mkBlockId n) ++ _).data).head? = some '<'
            rw [String.data_append, placeholder_data, openLit_cons]
            rfl
          | code_block c' =>
            right
            rw [render_code_block_intercept]
            show ((placeholderHtml (mkBlockId n) ++ _).data).head? = some '<'
            rw [String.data_append, placeholder_data, openLit_cons]
            rfl
      show scanAux CBS f acc ((s ++ (renderTokensWith oF oC interceptRules ts n).1)).data =
        refSegments acc (MdToken.inline s :: ts) n
      rw [String.data_append]
      have hf' : (s.data ++ (renderTokensWith oF oC interceptRules ts n).1.data).length ≤ f :=
        hf
      rw [scan_free CBS s.data _ acc f hf'
        (region_no_match s.data _ hs_free htail)]
      have hfuel : (renderTokensWith oF oC interceptRules ts n).1.data.length ≤
          f - s.data.length := by
        simp only [List.length_append] at hf'
        omega
      rw [ih hnorm' hfree' n (acc ++ s.data) CBS (f - s.data.length) hfuel hcbs]
      rfl
    | fence c i =>
      obtain ⟨-, hfree'⟩ := inlineFreeB_cons hfree
      have hnorm' := normalizedB_tail hnorm
      have hdata : ((placeholderHtml (mkBlockId n) ++
            (renderTokensWith oF oC interceptRules ts (n + 1)).1)).data =
          openLit ++ ((mkBlockId n).data ++
            (closeLit ++ (renderTokensWith oF oC interceptRules ts (n + 1)).1.data)) := by
        rw [String.data_append, placeholder_data]
        simp [List.append_assoc]
      have hm : matchPlaceholderAt (openLit ++ ((mkBlockId n).data ++
            (closeLit ++ (renderTokensWith oF oC interceptRules ts (n + 1)).1.data))) =
          some (mkBlockId n, (renderTokensWith oF oC interceptRules ts (n + 1)).1.data) :=
        match_complete _ _ (mkBlockId_ne_nil n) (mkBlockId_no_quote n)
      have hd : mapGet CBS (mkBlockId n) =
          some ⟨mkBlockId n, stripTrailingNewline c, langOf i⟩ := by
        have := hcbs ⟨mkBlockId n, stripTrailingNewline c, langOf i⟩
          (by rw [render_fence_intercept]; exact List.mem_cons_self _ _)
        exact this
      have hcbs' : ∀ d ∈ (renderTokensWith oF oC interceptRules ts (n + 1)).2,
          mapGet CBS d.id = some d := by
        intro d hdm
        exact hcbs d (by rw [render_fence_intercept]; exact List.mem_cons_of_mem _ hdm)
      rw [render_fence_intercept]
      show scanAux CBS f acc _ = refSegments acc (MdToken.fence c i :: ts) n
      rw [hdata]
      have hflen : (openLit ++ ((mkBlockId n).data ++
          (closeLit ++ (renderTokensWith oF oC interceptRules ts (n + 1)).1.data))).length ≤ f := by
        rw [← hdata]
        have := hf
        rw [render_fence_intercept] at this
        exact this
      rw [scan_at_match CBS f acc _ _ _ hm hflen]
      have hfuel : (renderTokensWith oF oC interceptRules ts (n + 1)).1.data.length ≤ f - 1 := by
        simp only [List.length_append] at hflen
        have hop : 0 < openLit.length := by decide
        omega
      rw [ih hnorm' hfree' (n + 1) [] CBS (f - 1) hfuel hcbs']
      show flushHtml acc ++ lookupSeg CBS (mkBlockId n) ++ _ = _
      rw [lookupSeg, hd]
      rfl
    | code_block c =>
      obtain ⟨-, hfree'⟩ := inlineFreeB_cons hfree
      have hnorm' := normalizedB_tail hnorm
      have hdata : ((placeholderHtml (mkBlockId n) ++
            (renderTokensWith oF oC interceptRules ts (n + 1)).1)).data =
          openLit ++ ((mkBlockId n).data ++
            (closeLit ++ (renderTokensWith oF oC interceptRules ts (n + 1)).1.data)) := by
        rw [String.data_append, placeholder_data]
        simp [List.append_assoc]
      have hm : matchPlaceholderAt (openLit ++ ((mkBlockId n).data ++
            (closeLit ++ (renderTokensWith oF oC interceptRules ts (n + 1)).1.data))) =
          some (mkBlockId n, (renderTokensWith oF oC interceptRules ts (n + 1)).1.data) :=
        match_complete _ _ (mkBlockId_ne_nil n) (mkBlockId_no_quote n)
      have hd : mapGet CBS (mkBlockId n) =
          some ⟨mkBlockId n, stripTrailingNewline c, "plaintext"⟩ := by
        have := hcbs ⟨mkBlockId n, stripTrailingNewline c, "plaintext"⟩
          (by rw [render_code_block_intercept]; exact List.mem_cons_self _ _)
        exact this
      have hcbs' : ∀ d ∈ (renderTokensWith oF oC interceptRules ts (n + 1)).2,
          mapGet CBS d.id = some d := by
        intro d hdm
        exact hcbs d (by rw [render_code_block_intercept]; exact List.mem_cons_of_mem _ hdm)
      rw [render_code_block_intercept]
      show scanAux CBS f acc _ = refSegments acc (MdToken.code_block c :: ts) n
      rw [hdata]
      have hflen : (openLit ++ ((mkBlockId n).data ++
          (closeLit ++ (renderTokensWith oF oC interceptRules ts (n + 1)).1.data))).length ≤ f := by
        rw [← hdata]
        have := hf
        rw [render_code_block_intercept] at this
        exact this
      rw [scan_at_match CBS f acc _ _ _ hm hflen]
      have hfuel : (renderTokensWith oF oC interceptRules ts (n + 1)).1.data.length ≤ f - 1 := by
        simp only [List.length_append] at hflen
        have hop : 0 < openLit.length := by decide
        omega
      rw [ih hnorm' hfree' (n + 1) [] CBS (f - 1) hfuel hcbs']
      show flushHtml acc ++ lookupSeg CBS (mkBlockId n) ++ _ = _
      rw [lookupSeg, hd]
      rfl

theorem segmentTokens_eq (oF : String → String → String) (oC : String → String)
    (ts : List MdToken) (h1 : normalizedB ts = true) (h2 : inlineFreeB ts = true) :
    segmentTokens oF oC ts = refSegments [] ts 0 := by
  unfold segmentTokens segmentsOf
  have hcbs : ∀ d ∈ (renderTokensWith oF oC interceptRules ts 0).2,
      mapGet (renderTokensWith oF oC interceptRules ts 0).2 d.id = some d :=
    mapGet_self _ (render_ids_nodup oF oC ts 0)
  by_cases he : (renderTokensWith oF oC interceptRules ts 0).1 = ""
  · have hs := scan_render oF oC ts h1 h2 0 [] (renderTokensWith oF oC interceptRules ts 0).2 0
      (by rw [he]; exact Nat.le_refl _) hcbs
    rw [he] at hs
    rw [if_pos he, ← hs]
    show [] = scanAux _ 0 [] []
    rw [scanAux_nil]
    rfl
  · rw [if_neg he]
    exact scan_render oF oC ts h1 h2 0 [] (renderTokensWith oF oC interceptRules ts 0).2
      (renderTokensWith oF oC interceptRules ts 0).1.data.length (Nat.le_refl _) hcbs

/-! ### Shape of the reference segmentation -/

theorem flushHtml_filterMap (acc : List Char) : (flushHtml acc).filterMap codeOf = [] := by
  unfold flushHtml
  split <;> simp [codeOf]

theorem flushHtml_count (acc : List Char) : (flushHtml acc).countP isCodeSeg = 0 := by
  unfold flushHtml
  split <;> simp [isCodeSeg]

theorem flushHtml_noBlank (acc : List Char) : (flushHtml acc).all noBlankHtmlSeg = true := by
  by_cases h : jsBlank ⟨acc⟩
  · simp [flushHtml, h]
  · simp only [flushHtml, if_neg h, List.all_cons, List.all_nil, Bool.and_true]
    simp [noBlankHtmlSeg, h]

theorem refSegments_filterMap (oF : String → String → String) (oC : String → String) :
    ∀ (ts : List MdToken) (acc : List Char) (n : Nat),
    (refSegments acc ts n).filterMap codeOf = (renderTokensWith oF oC interceptRules ts n).2 := by
  intro ts
  induction ts with
  | nil => intro acc n; exact flushHtml_filterMap acc
  | cons t ts ih =>
    intro acc n
    cases t with
    | inline s => exact ih (acc ++ s.data) n
    | fence c i =>
      show ((flushHtml acc ++ _) ++ _).filterMap codeOf = _
      rw [render_fence_intercept]
      simp [List.filterMap_append, flushHtml_filterMap, codeOf, ih [] (n + 1)]
    | code_block c =>
      show ((flushHtml acc ++ _) ++ _).filterMap codeOf = _
      rw [render_code_block_intercept]
      simp [List.filterMap_append, flushHtml_filterMap, codeOf, ih [] (n + 1)]

theorem refSegments_count : ∀ (ts : List MdToken) (acc : List Char) (n : Nat),
    (refSegments acc ts n).countP isCodeSeg = countCode ts := by
  intro ts
  induction ts with
  | nil =>
    intro acc n
    rw [countCode_nil]
    exact flushHtml_count acc
  | cons t ts ih =>
    intro acc n
    cases t with
    | inline s =>
      rw [countCode_inline]
      exact ih (acc ++ s.data) n
    | fence c i =>
      show ((flushHtml acc ++ _) ++ _).countP isCodeSeg = _
      rw [countCode_fence]
      simp only [List.countP_append, flushHtml_count, ih [] (n + 1)]
      simp [isCodeSeg, List.countP_cons]
      omega
    | code_block c =>
      show ((flushHtml acc ++ _) ++ _).countP isCodeSeg = _
      rw [countCode_code_block]
      simp only [List.countP_append, flushHtml_count, ih [] (n + 1)]
      simp [isCodeSeg, List.countP_cons]
      omega

theorem refSegments_noBlank : ∀ (ts : List MdToken) (acc : List Char) (n : Nat),
    (refSegments acc ts n).all noBlankHtmlSeg = true := by
  intro ts
  induction ts with
  | nil => intro acc n; exact flushHtml_noBlank acc
  | cons t ts ih =>
    intro acc n
    cases t with
    | inline s => exact ih (acc ++ s.data) n
    | fence c i =>
      show ((flushHtml acc ++ _) ++ _).all noBlankHtmlSeg = true
      simp [List.all_append, flushHtml_noBlank, ih [] (n + 1), noBlankHtmlSeg]
    | code_block c =>
      show ((flushHtml acc ++ _) ++ _).all noBlankHtmlSeg = true
      simp [List.all_append, flushHtml_noBlank, ih [] (n + 1), noBlankHtmlSeg]

/-! ### Further helper lemmas -/

theorem render_fence_original (oF : String → String → String) (oC : String → String)
    (R : RendererRules) (hR : R.fence = RuleSlot.original) (c i : String)
    (ts : List MdToken) (n : Nat) :
    renderTokensWith oF oC R (MdToken.fence c i :: ts) n =
      (oF c i ++ (renderTokensWith oF oC R ts n).1, (renderTokensWith oF oC R ts n).2) := by
  have hni : ¬(R.fence = RuleSlot.intercept) := by
    rw [hR]
    intro h
    cases h
  simp only [renderTokensWith, if_neg hni]

theorem render_code_block_original (oF : String → String → String) (oC : String → String)
    (R : RendererRules) (hR : R.code_block = RuleSlot.original) (c : String)
    (ts : List MdToken) (n : Nat) :
    renderTokensWith oF oC R (MdToken.code_block c :: ts) n =
      (oC c ++ (renderTokensWith oF oC R ts n).1, (renderTokensWith oF oC R ts n).2) := by
  have hni : ¬(R.code_block = RuleSlot.intercept) := by
    rw [hR]
    intro h
    cases h
  simp only [renderTokensWith, if_neg hni]

theorem scan_no_match_ge (cbs : List CodeBlockData) (s : List Char) (f : Nat)
    (hf : s.length ≤ f) (hfree : hasOpenLit s = false) :
    scanAux cbs f [] s = flushHtml s := by
  have h := scan_free cbs s [] [] f (by simpa using hf)
    (region_no_match s [] hfree (Or.inl rfl))
  simp only [List.append_nil, List.nil_append] at h
  rw [h, scanAux_nil]

theorem flushHtml_not_code (acc : List Char) :
    (flushHtml acc).all (fun sg => !isCodeSeg sg) = true := by
  by_cases h : jsBlank ⟨acc⟩
  · simp [flushHtml, h]
  · simp [flushHtml, h, isCodeSeg]

theorem flushHtml_markerFree (acc : List Char) (h : hasOpenLit acc = false) :
    (flushHtml acc).all markerFreeSeg = true := by
  by_cases hb : jsBlank ⟨acc⟩
  · simp [flushHtml, hb]
  · simp [flushHtml, hb, markerFreeSeg, h]

theorem dropLast_append_of_getLast? : ∀ (l : List Char) (c : Char),
    l.getLast? = some c → l.dropLast ++ [c] = l := by
  intro l
  induction l with
  | nil =>
    intro c h
    simp at h
  | cons a l ih =>
    intro c h
    cases l with
    | nil =>
      simp at h
      simp [h]
    | cons b l =>
      rw [List.getLast?_cons_cons] at h
      have := ih c h
      simp only [List.dropLast_cons₂, List.cons_append, this]

/-! ### Claim theorems -/

/-- C1: for every (normalized, marker-free) token stream, the segment sequence
equals the reference top-to-bottom segmentation, so every recorded Code Block
Descriptor appears in exactly one Code segment and in document order (the
code-segment subsequence is exactly the recorded descriptor list); no emitted
HTML segment is blank after trimming; and on the worked example
`"A\n```\nx\n```\nB"` the output is the HTML segment derived from A, then the
Code segment for x, then the HTML segment derived from B. -/
theorem c1_segment_invariant (oF : String → String → String) (oC : String → String)
    (ts : List MdToken) (h1 : normalizedB ts = true) (h2 : inlineFreeB ts = true) :
    segmentTokens oF oC ts = refSegments [] ts 0 ∧
    (segmentTokens oF oC ts).filterMap codeOf =
      (renderTokensWith oF oC interceptRules ts 0).2 ∧
    (segmentTokens oF oC ts).all noBlankHtmlSeg = true ∧
    runSegmenter exF exC (fun _ => exampleTokens) "A\n```\nx\n```\nB" =
      [Segment.html "<p>A</p>\n", Segment.code ⟨"code-block-0", "x", "plaintext"⟩,
        Segment.html "<p>B</p>\n"] := by
  have he := segmentTokens_eq oF oC ts h1 h2
  refine ⟨he, ?_, ?_, by decide⟩
  · rw [he, refSegments_filterMap oF oC]
  · rw [he]
    exact refSegments_noBlank ts [] 0

/-- Witness for C1 at the worked example's token stream. -/
theorem c1_segment_invariant_witness :
    normalizedB exampleTokens = true ∧ inlineFreeB exampleTokens = true ∧
    (segmentTokens exF exC exampleTokens = refSegments [] exampleTokens 0 ∧
     (segmentTokens exF exC exampleTokens).filterMap codeOf =
       (renderTokensWith exF exC interceptRules exampleTokens 0).2 ∧
     (segmentTokens exF exC exampleTokens).all noBlankHtmlSeg = true ∧
     runSegmenter exF exC (fun _ => exampleTokens) "A\n```\nx\n```\nB" =
       [Segment.html "<p>A</p>\n", Segment.code ⟨"code-block-0", "x", "plaintext"⟩,
         Segment.html "<p>B</p>\n"]) :=
  ⟨by decide, by decide, c1_segment_invariant exF exC exampleTokens (by decide) (by decide)⟩

/-- C2: after any invocation of the segmenter — including on blank input, where
the early return happens before any mutation — the shared renderer's fence and
indented-code slots hold their original (non-intercepting) values again, and a
subsequent render pass that does not go through the segmenter therefore applies
the original fence / indented-code handlers: it emits their output, records no
descriptor, and does not advance any counter. -/
theorem c2_renderer_restore (oF : String → String → String) (oC : String → String)
    (parse : String → List MdToken) (source : String) (rules : RendererRules)
    (fc fi cc : String) (ts1 ts2 : List MdToken) (n1 n2 : Nat)
    (h1 : rules.fence = RuleSlot.original) (h2 : rules.code_block = RuleSlot.original) :
    (processedContentSt oF oC parse source rules).2.fence = RuleSlot.original ∧
    (processedContentSt oF oC parse source rules).2.code_block = RuleSlot.original ∧
    renderTokensWith oF oC (processedContentSt oF oC parse source rules).2
        (MdToken.fence fc fi :: ts1) n1 =
      (oF fc fi ++
        (renderTokensWith oF oC (processedContentSt oF oC parse source rules).2 ts1 n1).1,
       (renderTokensWith oF oC (processedContentSt oF oC parse source rules).2 ts1 n1).2) ∧
    renderTokensWith oF oC (processedContentSt oF oC parse source rules).2
        (MdToken.code_block cc :: ts2) n2 =
      (oC cc ++
        (renderTokensWith oF oC (processedContentSt oF oC parse source rules).2 ts2 n2).1,
       (renderTokensWith oF oC (processedContentSt oF oC parse source rules).2 ts2 n2).2) := by
  have hfence : (processedContentSt oF oC parse source rules).2.fence = RuleSlot.original := by
    unfold processedContentSt
    split
    · exact h1
    · rfl
  have hcode : (processedContentSt oF oC parse source rules).2.code_block =
      RuleSlot.original := by
    unfold processedContentSt
    split
    · exact h2
    · rfl
  exact ⟨hfence, hcode, render_fence_original oF oC _ hfence fc fi ts1 n1,
    render_code_block_original oF oC _ hcode cc ts2 n2⟩

/-- Witness for C2 starting from the steady state of the rule table. -/
theorem c2_renderer_restore_witness :
    originalRules.fence = RuleSlot.original ∧ originalRules.code_block = RuleSlot.original ∧
    ((processedContentSt exF exC (fun _ => exampleTokens) "A" originalRules).2.fence =
        RuleSlot.original ∧
     (processedContentSt exF exC (fun _ => exampleTokens) "A" originalRules).2.code_block =
        RuleSlot.original ∧
     renderTokensWith exF exC (processedContentSt exF exC (fun _ => exampleTokens) "A"
          originalRules).2 (MdToken.fence "x\n" "js" :: []) 0 =
       (exF "x\n" "js" ++
         (renderTokensWith exF exC (processedContentSt exF exC (fun _ => exampleTokens) "A"
            originalRules).2 [] 0).1,
        (renderTokensWith exF exC (processedContentSt exF exC (fun _ => exampleTokens) "A"
            originalRules).2 [] 0).2) ∧
     renderTokensWith exF exC (processedContentSt exF exC (fun _ => exampleTokens) "A"
          originalRules).2 (MdToken.code_block "y\n" :: []) 0 =
       (exC "y\n" ++
         (renderTokensWith exF exC (processedContentSt exF exC (fun _ => exampleTokens) "A"
            originalRules).2 [] 0).1,
        (renderTokensWith exF exC (processedContentSt exF exC (fun _ => exampleTokens) "A"
            originalRules).2 [] 0).2)) :=
  ⟨rfl, rfl, c2_renderer_restore exF exC (fun _ => exampleTokens) "A" originalRules
    "x\n" "js" "y\n" [] [] 0 0 rfl rfl⟩

/-- C3: for every (normalized, marker-free) token stream with N code-block
tokens the output has exactly N Code segments, their descriptors' code texts
are the original block contents each with exactly one trailing newline
stripped, and the stripping function removes exactly one trailing newline when
present and nothing otherwise. -/
theorem c3_code_segment_count (oF : String → String → String) (oC : String → String)
    (ts : List MdToken) (s : String)
    (h1 : normalizedB ts = true) (h2 : inlineFreeB ts = true) :
    (segmentTokens oF oC ts).countP isCodeSeg = countCode ts ∧
    ((segmentTokens oF oC ts).filterMap codeOf).map (fun d => d.code) =
      (ts.filterMap contentOf).map stripTrailingNewline ∧
    (s.data.getLast? = some '\n' → stripTrailingNewline s ++ "\n" = s) ∧
    (s.data.getLast? ≠ some '\n' → stripTrailingNewline s = s) := by
  have he := segmentTokens_eq oF oC ts h1 h2
  refine ⟨?_, ?_, ?_, ?_⟩
  · rw [he]
    exact refSegments_count ts [] 0
  · rw [he, refSegments_filterMap oF oC, render_codes oF oC]
  · intro hln
    unfold stripTrailingNewline
    rw [if_pos hln]
    apply String.ext
    rw [String.data_append]
    exact dropLast_append_of_getLast? s.data '\n' hln
  · intro hln
    unfold stripTrailingNewline
    rw [if_neg hln]

/-- Witness for C3 at the worked example's token stream. -/
theorem c3_code_segment_count_witness :
    normalizedB exampleTokens = true ∧ inlineFreeB exampleTokens = true ∧
    ((segmentTokens exF exC exampleTokens).countP isCodeSeg = countCode exampleTokens ∧
     ((segmentTokens exF exC exampleTokens).filterMap codeOf).map (fun d => d.code) =
       (exampleTokens.filterMap contentOf).map stripTrailingNewline ∧
     (("x\n" : String).data.getLast? = some '\n' →
        stripTrailingNewline "x\n" ++ "\n" = "x\n") ∧
     (("x\n" : String).data.getLast? ≠ some '\n' →
        stripTrailingNewline "x\n" = "x\n")) :=
  ⟨by decide, by decide,
    c3_code_segment_count exF exC exampleTokens "x\n" (by decide) (by decide)⟩

/-- C4: empty or whitespace-only input yields an empty segment sequence and
records no Code Block Descriptors. -/
theorem c4_blank_input (oF : String → String → String) (oC : String → String)
    (parse : String → List MdToken) (source : String) (h : jsBlank source = true) :
    runSegmenter oF oC parse source = [] ∧
    (processedContent oF oC parse source).2 = [] := by
  constructor
  · unfold runSegmenter runSegmenterSt processedContentSt
    simp [h, segmentsOf]
  · unfold processedContent processedContentSt
    simp [h]

/-- Witness for C4 at the whitespace-only input of the spec. -/
theorem c4_blank_input_witness :
    jsBlank "   \n\t" = true ∧
    (runSegmenter exF exC (fun _ => exampleTokens) "   \n\t" = [] ∧
     (processedContent exF exC (fun _ => exampleTokens) "   \n\t").2 = []) :=
  ⟨by decide, c4_blank_input exF exC (fun _ => exampleTokens) "   \n\t" (by decide)⟩

/-- C5: a non-blank source whose token stream has zero code blocks (and whose
rendered, non-blank HTML cannot be mistaken for a placeholder) yields exactly
one HTML segment — the whole rendered document — and no Code segments. -/
theorem c5_single_html_segment (oF : String → String → String) (oC : String → String)
    (parse : String → List MdToken) (source : String)
    (h0 : jsBlank source = false)
    (h1 : (parse source).all isInlineTok = true)
    (h2 : hasOpenLit (inlineConcat (parse source)).data = false)
    (h3 : jsBlank (inlineConcat (parse source)) = false) :
    runSegmenter oF oC parse source = [Segment.html (inlineConcat (parse source))] ∧
    (runSegmenter oF oC parse source).countP isCodeSeg = 0 := by
  have hrender := render_all_inline oF oC interceptRules (parse source) 0 h1
  have hne : inlineConcat (parse source) ≠ "" := by
    intro h
    rw [h] at h3
    have : jsBlank "" = true := rfl
    rw [this] at h3
    cases h3
  have hmain : runSegmenter oF oC parse source =
      [Segment.html (inlineConcat (parse source))] := by
    unfold runSegmenter runSegmenterSt processedContentSt
    simp only [h0, Bool.false_eq_true, if_false]
    rw [hrender]
    unfold segmentsOf
    rw [if_neg hne]
    rw [scan_no_match_ge _ _ _ (Nat.le_refl _) h2]
    unfold flushHtml
    rw [string_mk_data, if_neg (by rw [h3]; intro hco; cases hco)]
  refine ⟨hmain, ?_⟩
  rw [hmain]
  simp [List.countP_cons, isCodeSeg]

/-- Witness for C5 on a one-paragraph document. -/
theorem c5_single_html_segment_witness :
    jsBlank "Hi" = false ∧
    ((fun (_ : String) => [MdToken.inline "<p>Hi</p>\n"]) "Hi").all isInlineTok = true ∧
    hasOpenLit (inlineConcat ((fun (_ : String) => [MdToken.inline "<p>Hi</p>\n"]) "Hi")).data =
      false ∧
    jsBlank (inlineConcat ((fun (_ : String) => [MdToken.inline "<p>Hi</p>\n"]) "Hi")) = false ∧
    (runSegmenter exF exC (fun _ => [MdToken.inline "<p>Hi</p>\n"]) "Hi" =
      [Segment.html (inlineConcat ((fun (_ : String) => [MdToken.inline "<p>Hi</p>\n"]) "Hi"))] ∧
     (runSegmenter exF exC (fun _ => [MdToken.inline "<p>Hi</p>\n"]) "Hi").countP isCodeSeg = 0) :=
  ⟨by decide, by decide, by decide, by decide,
    c5_single_html_segment exF exC (fun _ => [MdToken.inline "<p>Hi</p>\n"]) "Hi"
      (by decide) (by decide) (by decide) (by decide)⟩

/-- C6: a descriptor's language tag is the fence's info string passed through
verbatim when non-empty, and the fixed tag "plaintext" for a fenced block with
empty info or for any indented block; concretely, info "js" yields exactly
"js", empty info yields "plaintext", and an indented block yields "plaintext"
regardless of its content. -/
theorem c6_language_tags (oF : String → String → String) (oC : String → String)
    (ts : List MdToken) (n : Nat) :
    ((renderTokensWith oF oC interceptRules ts n).2).map (fun d => d.language) =
      ts.filterMap tokenLang ∧
    runSegmenter exF exC (fun _ => [MdToken.fence "x\n" "js"]) "```js\nx\n```" =
      [Segment.code ⟨"code-block-0", "x", "js"⟩] ∧
    runSegmenter exF exC (fun _ => [MdToken.fence "x\n" ""]) "```\nx\n```" =
      [Segment.code ⟨"code-block-0", "x", "plaintext"⟩] ∧
    runSegmenter exF exC (fun _ => [MdToken.code_block "x\n"]) "    x" =
      [Segment.code ⟨"code-block-0", "x", "plaintext"⟩] :=
  ⟨render_langs oF oC ts n, by decide, by decide, by decide⟩

/-- C7: when the scan meets a placeholder whose identifier has no recorded
descriptor it does not fail: the full split is still produced, no Code segment
is emitted for that placeholder (here: none at all), and the placeholder
marker text appears in no emitted HTML segment. -/
theorem c7_missing_descriptor (cbs : List CodeBlockData) (key pre post : String)
    (h1 : hasOpenLit pre.data = false) (h2 : hasOpenLit post.data = false)
    (h3 : key.data ≠ []) (h4 : ∀ c ∈ key.data, (c == '"') = false)
    (h5 : mapGet cbs key = none) :
    segmentsOf (pre ++ placeholderHtml key ++ post) cbs =
      flushHtml pre.data ++ flushHtml post.data ∧
    (segmentsOf (pre ++ placeholderHtml key ++ post) cbs).all
      (fun sg => !isCodeSeg sg) = true ∧
    (segmentsOf (pre ++ placeholderHtml key ++ post) cbs).all markerFreeSeg = true := by
  have hop : 0 < openLit.length := by decide
  have hdata : (pre ++ placeholderHtml key ++ post).data =
      pre.data ++ (openLit ++ (key.data ++ (closeLit ++ post.data))) := by
    simp [String.data_append, placeholder_data, List.append_assoc]
  have hne : pre ++ placeholderHtml key ++ post ≠ "" := by
    intro h
    have hd := congrArg String.data h
    rw [hdata] at hd
    rcases List.append_eq_nil.mp hd with ⟨-, hd2⟩
    rcases List.append_eq_nil.mp hd2 with ⟨hd3, -⟩
    exact openLit_ne_nil hd3
  have hmain : segmentsOf (pre ++ placeholderHtml key ++ post) cbs =
      flushHtml pre.data ++ flushHtml post.data := by
    unfold segmentsOf
    rw [if_neg hne, hdata]
    rw [scan_free cbs pre.data (openLit ++ (key.data ++ (closeLit ++ post.data))) []
      (pre.data ++ (openLit ++ (key.data ++ (closeLit ++ post.data)))).length (Nat.le_refl _)
      (region_no_match pre.data _ h1 (Or.inr (by rw [openLit_cons]; rfl)))]
    have hm := match_complete key post.data h3 h4
    have hflen : (openLit ++ (key.data ++ (closeLit ++ post.data))).length ≤
        (pre.data ++ (openLit ++ (key.data ++ (closeLit ++ post.data)))).length -
          pre.data.length := by
      simp only [List.length_append]
      omega
    rw [scan_at_match cbs _ _ _ key post.data hm hflen]
    have hfuel : post.data.length ≤
        (pre.data ++ (openLit ++ (key.data ++ (closeLit ++ post.data)))).length -
          pre.data.length - 1 := by
      simp only [List.length_append]
      omega
    rw [scan_no_match_ge cbs post.data _ hfuel h2]
    rw [lookupSeg, h5]
    simp
  refine ⟨hmain, ?_, ?_⟩
  · rw [hmain]
    simp only [List.all_append, Bool.and_eq_true]
    exact ⟨flushHtml_not_code pre.data, flushHtml_not_code post.data⟩
  · rw [hmain]
    simp only [List.all_append, Bool.and_eq_true]
    exact ⟨flushHtml_markerFree pre.data h1, flushHtml_markerFree post.data h2⟩

/-- Witness for C7 with an empty descriptor table and a dangling placeholder. -/
theorem c7_missing_descriptor_witness :
    hasOpenLit ("<p>A</p>" : String).data = false ∧
    hasOpenLit ("<p>B</p>" : String).data = false ∧
    ("code-block-9" : String).data ≠ [] ∧
    (∀ c ∈ ("code-block-9" : String).data, (c == '"') = false) ∧
    mapGet [] "code-block-9" = none ∧
    (segmentsOf ("<p>A</p>" ++ placeholderHtml "code-block-9" ++ "<p>B</p>") [] =
      flushHtml ("<p>A</p>" : String).data ++ flushHtml ("<p>B</p>" : String).data ∧
     (segmentsOf ("<p>A</p>" ++ placeholderHtml "code-block-9" ++ "<p>B</p>") []).all
       (fun sg => !isCodeSeg sg) = true ∧
     (segmentsOf ("<p>A</p>" ++ placeholderHtml "code-block-9" ++ "<p>B</p>") []).all
       markerFreeSeg = true) :=
  ⟨by decide, by decide, by decide, by decide, rfl,
    c7_missing_descriptor [] "code-block-9" "<p>A</p>" "<p>B</p>"
      (by decide) (by decide) (by decide) (by decide) rfl⟩

/-- C8: the segmenter's output does not depend on the incoming state of the
shared rule table, so two successive invocations on the same input produce
structurally identical segment sequences; and within one pass the identifiers
come from a fresh counter in strict document order (`code-block-n`,
`code-block-n+1`, ...) and are pairwise distinct. -/
theorem c8_determinism_and_ids (oF : String → String → String) (oC : String → String)
    (parse : String → List MdToken) (source : String)
    (st0 st1 : RendererRules) (ts : List MdToken) (n : Nat) :
    (runSegmenterSt oF oC parse source st0).1 = (runSegmenterSt oF oC parse source st1).1 ∧
    (runSegmenterSt oF oC parse source ((runSegmenterSt oF oC parse source st0).2)).1 =
      (runSegmenterSt oF oC parse source st0).1 ∧
    ((renderTokensWith oF oC interceptRules ts n).2).map (fun d => d.id) =
      (List.range' n (countCode ts)).map mkBlockId ∧
    (((renderTokensWith oF oC interceptRules ts n).2).map (fun d => d.id)).Nodup := by
  refine ⟨?_, ?_, render_ids oF oC ts n, render_ids_nodup oF oC ts n⟩
  · unfold runSegmenterSt processedContentSt
    by_cases h : jsBlank source <;> simp [h]
  · unfold runSegmenterSt processedContentSt
    by_cases h : jsBlank source <;> simp [h]

/-- C9: creating a file with an empty name yields the name "Untitled", the
creation and last-modified timestamps of a new file are the same clock
reading, and the new file is appended to the list. -/
theorem c9_create_file (files : List SavedFile) (newId : String) (nm content : String)
    (now : Nat) :
    (createFile files newId "" content now).1.name = "Untitled" ∧
    (createFile files newId nm content now).1.createdAt =
      (createFile files newId nm content now).1.updatedAt ∧
    (createFile files newId nm content now).2 =
      files ++ [(createFile files newId nm content now).1] :=
  ⟨rfl, rfl, rfl⟩

/-- C10: deleting by id keeps exactly the files whose id differs — each
survivor an unchanged element of the old list, in order — and the current-file
selection becomes null exactly when it pointed at the deleted id (or already
was null), and is otherwise unchanged. -/
theorem c10_delete_file (st : FilesState) (fid : String) (f : SavedFile) :
    (f ∈ (deleteFile st fid).files ↔ f ∈ st.files ∧ f.id ≠ fid) ∧
    (deleteFile st fid).files.Sublist st.files ∧
    (deleteFile st fid).currentFileId =
      (if st.currentFileId = some fid then none else st.currentFileId) ∧
    ((deleteFile st fid).currentFileId = none ↔
      (st.currentFileId = some fid ∨ st.currentFileId = none)) := by
  refine ⟨?_, List.filter_sublist _, rfl, ?_⟩
  · unfold deleteFile
    simp [List.mem_filter, bne_iff_ne]
  · unfold deleteFile
    by_cases h : st.currentFileId = some fid
    · simp [h]
    · simp [h]

end OMD
